import Mathlib

/-!
Verification of the Graham-scan convex-hull engine from `src/index.ts`.

The geometry core of the repository consists of the `Coord2D` point class,
the region-table angular comparator `compareAngle`, and the hull engine
`findConvexHull` (pivot selection by a `reduce`, a stable sort by
`compareAngle` around the pivot, and a monotonic-stack scan).  Points carry
integer coordinates, so JavaScript number arithmetic on them is exact and is
embedded as `Int` arithmetic.

JavaScript's `Array.prototype.sort` is stable (ES2019) and `compareAngle`
is a consistent comparator, so the sort is embedded as a stable insertion
sort by the same comparator.  The hull stack is embedded head-first (the
head of the list is the top of the stack, i.e. `convexHull[length-1]`);
the final result reverses it back into push order.
-/

namespace GrahamScan

/-- The `Coord2D` class: a point of the plane with integer coordinates. -/
structure Coord2D where
  x : Int
  y : Int
deriving DecidableEq, Repr

/-- Method `Coord2D.same`: coordinate-wise equality test. -/
def Coord2D.same (a b : Coord2D) : Bool :=
  a.x == b.x && a.y == b.y

/-- The `REGIONS` table of `compareAngle`: the nine sign pairs, listed in
increasing angular order starting from the zero vector. -/
def REGIONS : List (Int × Int) :=
  [(0, 0), (1, 0), (1, 1), (0, 1), (-1, 1), (-1, 0), (-1, -1), (0, -1), (1, -1)]

/-- The `findIndex` call of `compareAngle`: index of the region whose sign
pair is `(Int.sign x, Int.sign y)`; JavaScript's `findIndex` yields `-1`
when no entry matches (which in fact never happens). -/
def regionIdx (x y : Int) : Int :=
  match REGIONS.findIdx? (fun r => r.1 == Int.sign x && r.2 == Int.sign y) with
  | some i => (i : Int)
  | none => -1

/-- The function `compareAngle(base1, coord1, base2, coord2)`: compares the
polar angles of the two difference vectors via the region table, breaking
same-region ties by the sign of `y1*x2 - y2*x1`. -/
def compareAngle (base1 coord1 base2 coord2 : Coord2D) : Int :=
  let x1 := coord1.x - base1.x
  let y1 := coord1.y - base1.y
  let x2 := coord2.x - base2.x
  let y2 := coord2.y - base2.y
  let regionIdx1 := regionIdx x1 y1
  let regionIdx2 := regionIdx x2 y2
  if regionIdx1 ≠ regionIdx2 then
    Int.sign (regionIdx1 - regionIdx2)
  else
    Int.sign (y1 * x2 - y2 * x1)

/-- The `reduce` of `findConvexHull` selecting `baseCoord`: fold that keeps
the current provisional base unless the candidate is strictly lower, or as
low and strictly more to the left.  `c` is the first element of the input
(the initial accumulator of `reduce`), `cs` the remaining elements. -/
def selectBase (c : Coord2D) (cs : List Coord2D) : Coord2D :=
  cs.foldl
    (fun provBaseCoord candCoord =>
      if candCoord.y < provBaseCoord.y ∨
          (candCoord.y = provBaseCoord.y ∧ candCoord.x < provBaseCoord.x) then
        candCoord
      else
        provBaseCoord)
    c

/-- One insertion step of the stable sort by `compareAngle` around `base`. -/
def insertByAngle (base p : Coord2D) : List Coord2D → List Coord2D
  | [] => [p]
  | q :: qs =>
    if compareAngle base p base q ≤ 0 then p :: q :: qs
    else q :: insertByAngle base p qs

/-- The `sortedCoords` computation of `findConvexHull`: a stable sort of the
input by `compareAngle(baseCoord, ·, baseCoord, ·)`, embedding the stable
(ES2019) `Array.prototype.sort` as a stable insertion sort. -/
def sortByAngle (base : Coord2D) : List Coord2D → List Coord2D
  | [] => []
  | p :: ps => insertByAngle base p (sortByAngle base ps)

/-- The inner `while` loop of `findConvexHull`: with candidate `coord`, pop
the top of the stack while the stack holds at least two points and
`compareAngle(top, coord, secondTop, coord) <= 0`.  The stack is split as
top element plus the rest, so the "at least two points" guard is the
pattern match on the rest. -/
def popWhile (coord : Coord2D) : Coord2D → List Coord2D → Coord2D × List Coord2D
  | top, second :: rest =>
    if compareAngle top coord second coord ≤ 0 then popWhile coord second rest
    else (top, second :: rest)
  | top, [] => (top, [])

/-- The `for` loop of `findConvexHull` over `sortedCoords`: skip a candidate
equal to the top of the stack, otherwise pop per `popWhile` and push the
candidate.  The stack is kept top-first and reversed into push order at the
end, matching the array the JavaScript code returns. -/
def scanLoop : Coord2D → List Coord2D → List Coord2D → List Coord2D
  | top, rest, [] => (top :: rest).reverse
  | top, rest, coord :: cs =>
    if coord.same top then scanLoop top rest cs
    else
      let pr := popWhile coord top rest
      scanLoop coord (pr.1 :: pr.2) cs

/-- The function `findConvexHull(coords)`: empty input yields the empty
array; otherwise select the pivot, sort all points by angle around it, and
run the stack scan started from the stack `[baseCoord]`. -/
def findConvexHull : List Coord2D → List Coord2D
  | [] => []
  | c :: cs =>
    let baseCoord := selectBase c cs
    scanLoop baseCoord [] (sortByAngle baseCoord (c :: cs))

/-- Cross-product collinearity of three points, used to state the
degenerate-output theorems. -/
def collinearPts (a b c : Coord2D) : Prop :=
  (b.x - a.x) * (c.y - a.y) - (c.x - a.x) * (b.y - a.y) = 0

instance (a b c : Coord2D) : Decidable (collinearPts a b c) := by
  unfold collinearPts; infer_instance

/-! ### Basic facts about the angular comparator -/

lemma compareAngle_def (b1 p1 b2 p2 : Coord2D) :
    compareAngle b1 p1 b2 p2 =
      if regionIdx (p1.x - b1.x) (p1.y - b1.y) ≠ regionIdx (p2.x - b2.x) (p2.y - b2.y) then
        Int.sign (regionIdx (p1.x - b1.x) (p1.y - b1.y) - regionIdx (p2.x - b2.x) (p2.y - b2.y))
      else
        Int.sign ((p1.y - b1.y) * (p2.x - b2.x) - (p2.y - b2.y) * (p1.x - b1.x)) := rfl

lemma sign_cases (x : Int) : x.sign = -1 ∨ x.sign = 0 ∨ x.sign = 1 := by
  rcases Int.lt_trichotomy x 0 with h | h | h
  · exact Or.inl (Int.sign_eq_neg_one_iff_neg.mpr h)
  · subst h; exact Or.inr (Or.inl Int.sign_zero)
  · exact Or.inr (Or.inr (Int.sign_eq_one_iff_pos.mpr h))

lemma regionIdx_sign (x y : Int) : regionIdx x y = regionIdx x.sign y.sign := by
  unfold regionIdx
  simp only [Int.sign_sign]

lemma regionIdx_mem_spec (x y : Int) :
    0 ≤ regionIdx x y ∧ regionIdx x y < 9 ∧
      REGIONS.get? (regionIdx x y).toNat = some (x.sign, y.sign) := by
  rw [regionIdx_sign]
  rcases sign_cases x with hx | hx | hx <;> rcases sign_cases y with hy | hy | hy <;>
    rw [hx, hy] <;> exact ⟨by decide, by decide, by decide⟩

lemma regionIdx_zero_zero : regionIdx 0 0 = 0 := by decide

lemma regionIdx_pos_of_ne_zero (x y : Int) (h : ¬(x = 0 ∧ y = 0)) : 0 < regionIdx x y := by
  rw [regionIdx_sign]
  rcases sign_cases x with hx | hx | hx <;> rcases sign_cases y with hy | hy | hy <;>
    rw [hx, hy] <;>
    first
      | decide
      | exact absurd ⟨Int.sign_eq_zero_iff_zero.mp hx, Int.sign_eq_zero_iff_zero.mp hy⟩ h

lemma compareAngle_swap (b1 p1 b2 p2 : Coord2D) :
    compareAngle b1 p1 b2 p2 = - compareAngle b2 p2 b1 p1 := by
  rw [compareAngle_def, compareAngle_def]
  by_cases h : regionIdx (p1.x - b1.x) (p1.y - b1.y) = regionIdx (p2.x - b2.x) (p2.y - b2.y)
  · rw [if_neg (not_ne_iff.mpr h), if_neg (not_ne_iff.mpr h.symm), ← Int.sign_neg]
    congr 1
    ring
  · rw [if_pos h, if_pos (fun he => h he.symm), ← Int.sign_neg, neg_sub]

lemma compareAngle_self (b p : Coord2D) : compareAngle b p b p = 0 := by
  rw [compareAngle_def, if_neg (not_ne_iff.mpr rfl), sub_self, Int.sign_zero]

lemma compareAngle_total (b x y : Coord2D) :
    compareAngle b x b y ≤ 0 ∨ compareAngle b y b x ≤ 0 := by
  rcases le_or_lt (compareAngle b x b y) 0 with h | h
  · exact Or.inl h
  · right
    rw [compareAngle_swap]
    omega

/-! ### Claim theorems about `compareAngle` -/

/-- C3: `compareAngle` classifies each difference vector into one of the 9
sign-pair regions of the table `REGIONS` (its index locates exactly the pair
`(sign x, sign y)`), returns the sign of the index difference whenever the
two regions differ, and classifies a zero-length vector into region `(0,0)`,
which therefore compares `-1` against every nonzero direction. -/
theorem compareAngle_region_classification (base1 coord1 base2 coord2 : Coord2D) :
    (0 ≤ regionIdx (coord1.x - base1.x) (coord1.y - base1.y)
      ∧ regionIdx (coord1.x - base1.x) (coord1.y - base1.y) < 9
      ∧ REGIONS.get? (regionIdx (coord1.x - base1.x) (coord1.y - base1.y)).toNat
          = some ((coord1.x - base1.x).sign, (coord1.y - base1.y).sign))
    ∧ (regionIdx (coord1.x - base1.x) (coord1.y - base1.y)
          ≠ regionIdx (coord2.x - base2.x) (coord2.y - base2.y) →
        compareAngle base1 coord1 base2 coord2
          = Int.sign (regionIdx (coord1.x - base1.x) (coord1.y - base1.y)
              - regionIdx (coord2.x - base2.x) (coord2.y - base2.y)))
    ∧ (coord1 = base1 →
        regionIdx (coord1.x - base1.x) (coord1.y - base1.y) = 0
        ∧ (¬(coord2.x - base2.x = 0 ∧ coord2.y - base2.y = 0) →
            compareAngle base1 coord1 base2 coord2 = -1)) := by
  refine ⟨regionIdx_mem_spec _ _, ?_, ?_⟩
  · intro h
    rw [compareAngle_def, if_pos h]
  · intro h
    have e1 : coord1.x - base1.x = 0 := by rw [h, sub_self]
    have e2 : coord1.y - base1.y = 0 := by rw [h, sub_self]
    refine ⟨by rw [e1, e2]; exact regionIdx_zero_zero, ?_⟩
    intro h2
    have hpos := regionIdx_pos_of_ne_zero _ _ h2
    rw [compareAngle_def, e1, e2, regionIdx_zero_zero, if_pos (by omega)]
    exact Int.sign_eq_neg_one_iff_neg.mpr (by omega)

/-- Witness for C3 at a concrete input: the zero vector at `(0,0)` compares
`-1` against the direction `(1,0)`. -/
theorem compareAngle_region_classification_witness :
    compareAngle ⟨0, 0⟩ ⟨0, 0⟩ ⟨0, 0⟩ ⟨1, 0⟩ = -1 :=
  ((compareAngle_region_classification ⟨0, 0⟩ ⟨0, 0⟩ ⟨0, 0⟩ ⟨1, 0⟩).2.2 rfl).2 (by decide)

/-- C4: when the two difference vectors fall in the same region,
`compareAngle` returns `Int.sign (y1*x2 - y2*x1)`, the negation of the sign
of the conventional cross product `x1*y2 - x2*y1`; and on every input its
result is `-1`, `0` or `1`. -/
theorem compareAngle_same_region_cross (base1 coord1 base2 coord2 : Coord2D) :
    (regionIdx (coord1.x - base1.x) (coord1.y - base1.y)
        = regionIdx (coord2.x - base2.x) (coord2.y - base2.y) →
      compareAngle base1 coord1 base2 coord2
        = Int.sign ((coord1.y - base1.y) * (coord2.x - base2.x)
            - (coord2.y - base2.y) * (coord1.x - base1.x))
      ∧ compareAngle base1 coord1 base2 coord2
        = - Int.sign ((coord1.x - base1.x) * (coord2.y - base2.y)
            - (coord2.x - base2.x) * (coord1.y - base1.y)))
    ∧ (compareAngle base1 coord1 base2 coord2 = -1
        ∨ compareAngle base1 coord1 base2 coord2 = 0
        ∨ compareAngle base1 coord1 base2 coord2 = 1) := by
  constructor
  · intro h
    have h1 : compareAngle base1 coord1 base2 coord2
        = Int.sign ((coord1.y - base1.y) * (coord2.x - base2.x)
            - (coord2.y - base2.y) * (coord1.x - base1.x)) := by
      rw [compareAngle_def, if_neg (not_ne_iff.mpr h)]
    refine ⟨h1, ?_⟩
    rw [h1, ← Int.sign_neg]
    congr 1
    ring
  · rw [compareAngle_def]
    by_cases h : regionIdx (coord1.x - base1.x) (coord1.y - base1.y)
        ≠ regionIdx (coord2.x - base2.x) (coord2.y - base2.y)
    · rw [if_pos h]; exact sign_cases _
    · rw [if_neg h]; exact sign_cases _

/-- Witness for C4 at a concrete input: the vectors `(2,1)` and `(1,2)` lie
in the same region and the cross-product tie-break yields `-1`. -/
theorem compareAngle_same_region_cross_witness :
    compareAngle ⟨0, 0⟩ ⟨2, 1⟩ ⟨0, 0⟩ ⟨1, 2⟩ = -1 := by
  have h := (compareAngle_same_region_cross ⟨0, 0⟩ ⟨2, 1⟩ ⟨0, 0⟩ ⟨1, 2⟩).1 (by decide)
  rw [h.1]
  decide

/-- C10: `compareAngle` is antisymmetric — swapping the two rays negates the
result — and reflexive: comparing a ray with itself yields `0`. -/
theorem compareAngle_antisymm_refl :
    (∀ base1 p1 base2 p2 : Coord2D,
        compareAngle base1 p1 base2 p2 = - compareAngle base2 p2 base1 p1)
    ∧ ∀ b p : Coord2D, compareAngle b p b p = 0 :=
  ⟨compareAngle_swap, compareAngle_self⟩

/-! ### The stable sort: permutation and adjacent sortedness -/

lemma insertByAngle_perm (base p : Coord2D) (l : List Coord2D) :
    (insertByAngle base p l).Perm (p :: l) := by
  induction l with
  | nil => exact List.Perm.refl _
  | cons q qs ih =>
    unfold insertByAngle
    by_cases h : compareAngle base p base q ≤ 0
    · rw [if_pos h]
    · rw [if_neg h]
      exact (ih.cons q).trans (List.Perm.swap p q qs)

lemma sortByAngle_perm (base : Coord2D) (l : List Coord2D) :
    (sortByAngle base l).Perm l := by
  induction l with
  | nil => exact List.Perm.refl _
  | cons p ps ih =>
    exact (insertByAngle_perm base p (sortByAngle base ps)).trans (ih.cons p)

lemma insertByAngle_head (base p : Coord2D) (l : List Coord2D) :
    (insertByAngle base p l).head? = some p ∨ (insertByAngle base p l).head? = l.head? := by
  cases l with
  | nil => exact Or.inl rfl
  | cons q qs =>
    unfold insertByAngle
    by_cases h : compareAngle base p base q ≤ 0
    · rw [if_pos h]; exact Or.inl rfl
    · rw [if_neg h]; exact Or.inr rfl

lemma insertByAngle_chain (base p : Coord2D) (l : List Coord2D)
    (hl : l.Chain' (fun a b => compareAngle base a base b ≤ 0)) :
    (insertByAngle base p l).Chain' (fun a b => compareAngle base a base b ≤ 0) := by
  induction l with
  | nil => simp [insertByAngle]
  | cons q qs ih =>
    rw [List.chain'_cons'] at hl
    unfold insertByAngle
    by_cases h : compareAngle base p base q ≤ 0
    · rw [if_pos h, List.chain'_cons']
      refine ⟨?_, List.chain'_cons'.mpr hl⟩
      intro y hy
      simp only [List.head?_cons, Option.mem_some_iff] at hy
      rw [← hy]
      exact h
    · rw [if_neg h, List.chain'_cons']
      refine ⟨?_, ih hl.2⟩
      intro y hy
      rcases insertByAngle_head base p qs with h1 | h1
      · rw [h1, Option.mem_some_iff] at hy
        rw [← hy, compareAngle_swap]
        omega
      · rw [h1] at hy
        exact hl.1 y hy

lemma sortByAngle_chain (base : Coord2D) (l : List Coord2D) :
    (sortByAngle base l).Chain' (fun a b => compareAngle base a base b ≤ 0) := by
  induction l with
  | nil => exact List.chain'_nil
  | cons p ps ih => exact insertByAngle_chain base p _ ih

/-! ### Pivot selection -/

lemma selectBase_spec (c : Coord2D) (cs : List Coord2D) :
    selectBase c cs ∈ c :: cs
    ∧ ∀ p ∈ c :: cs, (selectBase c cs).y < p.y
        ∨ ((selectBase c cs).y = p.y ∧ (selectBase c cs).x ≤ p.x) := by
  induction cs generalizing c with
  | nil =>
    refine ⟨List.mem_singleton.mpr rfl, ?_⟩
    intro p hp
    rw [List.mem_singleton] at hp
    subst hp
    exact Or.inr ⟨rfl, le_refl _⟩
  | cons d ds ih =>
    have hfold : selectBase c (d :: ds)
        = selectBase (if d.y < c.y ∨ (d.y = c.y ∧ d.x < c.x) then d else c) ds := rfl
    by_cases h : d.y < c.y ∨ (d.y = c.y ∧ d.x < c.x)
    · rw [hfold, if_pos h]
      obtain ⟨hmem, hmin⟩ := ih d
      constructor
      · rcases List.mem_cons.mp hmem with h1 | h1
        · rw [h1]; simp
        · exact List.mem_cons_of_mem _ (List.mem_cons_of_mem _ h1)
      · intro p hp
        rcases List.mem_cons.mp hp with rfl | hp'
        · have hd := hmin d (List.mem_cons_self _ _)
          omega
        · exact hmin p hp'
    · rw [hfold, if_neg h]
      obtain ⟨hmem, hmin⟩ := ih c
      constructor
      · rcases List.mem_cons.mp hmem with h1 | h1
        · rw [h1]; simp
        · exact List.mem_cons_of_mem _ (List.mem_cons_of_mem _ h1)
      · intro p hp
        rcases List.mem_cons.mp hp with rfl | hp'
        · exact hmin p (List.mem_cons_self _ _)
        · rcases List.mem_cons.mp hp' with rfl | hp''
          · have hc := hmin c (List.mem_cons_self _ _)
            omega
          · exact hmin p (List.mem_cons_of_mem _ hp'')

/-! ### The stack scan -/

lemma popWhile_getLast (coord : Coord2D) :
    ∀ (rest : List Coord2D) (top : Coord2D),
      ((popWhile coord top rest).1 :: (popWhile coord top rest).2).getLast?
        = (top :: rest).getLast? := by
  intro rest
  induction rest with
  | nil => intro top; rfl
  | cons s r ih =>
    intro top
    unfold popWhile
    by_cases h : compareAngle top coord s coord ≤ 0
    · rw [if_pos h, ih s, List.getLast?_cons_cons]
    · rw [if_neg h]

lemma popWhile_mem (coord : Coord2D) :
    ∀ (rest : List Coord2D) (top x : Coord2D),
      x ∈ (popWhile coord top rest).1 :: (popWhile coord top rest).2 → x ∈ top :: rest := by
  intro rest
  induction rest with
  | nil => intro top x hx; exact hx
  | cons s r ih =>
    intro top x hx
    unfold popWhile at hx
    by_cases h : compareAngle top coord s coord ≤ 0
    · rw [if_pos h] at hx
      exact List.mem_cons_of_mem _ (ih s x hx)
    · rw [if_neg h] at hx
      exact hx

lemma scanLoop_head :
    ∀ (l : List Coord2D) (top : Coord2D) (rest : List Coord2D),
      (scanLoop top rest l).head? = (top :: rest).getLast? := by
  intro l
  induction l with
  | nil => intro top rest; exact List.head?_reverse _
  | cons c cs ih =>
    intro top rest
    by_cases hc : c.same top = true
    · show (if c.same top = true then scanLoop top rest cs
          else scanLoop c ((popWhile c top rest).1 :: (popWhile c top rest).2) cs).head? = _
      rw [if_pos hc]
      exact ih top rest
    · show (if c.same top = true then scanLoop top rest cs
          else scanLoop c ((popWhile c top rest).1 :: (popWhile c top rest).2) cs).head? = _
      rw [if_neg hc, ih, List.getLast?_cons_cons, popWhile_getLast]

lemma scanLoop_mem :
    ∀ (l : List Coord2D) (top : Coord2D) (rest : List Coord2D) (x : Coord2D),
      x ∈ scanLoop top rest l → x ∈ top :: rest ∨ x ∈ l := by
  intro l
  induction l with
  | nil =>
    intro top rest x hx
    left
    exact List.mem_reverse.mp hx
  | cons c cs ih =>
    intro top rest x hx
    by_cases hc : c.same top = true
    · rw [show scanLoop top rest (c :: cs)
          = (if c.same top = true then scanLoop top rest cs
            else scanLoop c ((popWhile c top rest).1 :: (popWhile c top rest).2) cs) from rfl,
        if_pos hc] at hx
      rcases ih top rest x hx with h | h
      · exact Or.inl h
      · exact Or.inr (List.mem_cons_of_mem _ h)
    · rw [show scanLoop top rest (c :: cs)
          = (if c.same top = true then scanLoop top rest cs
            else scanLoop c ((popWhile c top rest).1 :: (popWhile c top rest).2) cs) from rfl,
        if_neg hc] at hx
      rcases ih _ _ x hx with h | h
      · rcases List.mem_cons.mp h with rfl | h'
        · exact Or.inr (List.mem_cons_self _ _)
        · exact Or.inl (popWhile_mem c rest top x h')
      · exact Or.inr (List.mem_cons_of_mem _ h)

lemma findConvexHull_cons_head (c : Coord2D) (cs : List Coord2D) :
    (findConvexHull (c :: cs)).head? = some (selectBase c cs) := by
  show (scanLoop (selectBase c cs) [] (sortByAngle (selectBase c cs) (c :: cs))).head?
      = some (selectBase c cs)
  rw [scanLoop_head]
  rfl

/-! ### Claim theorems about `findConvexHull` -/

/-- C2: on a nonempty input the hull is nonempty, its first element is the
selected pivot, and that pivot is an input point with the smallest
y-coordinate, ties broken by smallest x-coordinate. -/
theorem findConvexHull_head_pivot (c : Coord2D) (cs : List Coord2D) :
    findConvexHull (c :: cs) ≠ []
    ∧ (findConvexHull (c :: cs)).head? = some (selectBase c cs)
    ∧ selectBase c cs ∈ c :: cs
    ∧ ∀ p ∈ c :: cs, (selectBase c cs).y < p.y
        ∨ ((selectBase c cs).y = p.y ∧ (selectBase c cs).x ≤ p.x) := by
  refine ⟨?_, findConvexHull_cons_head c cs, (selectBase_spec c cs).1, (selectBase_spec c cs).2⟩
  intro h
  have hh := findConvexHull_cons_head c cs
  rw [h] at hh
  exact Option.noConfusion hh

/-- Witness for C2 at a concrete input. -/
theorem findConvexHull_head_pivot_witness :
    (findConvexHull [⟨0, 1⟩, ⟨2, 0⟩]).head? = some (selectBase ⟨0, 1⟩ [⟨2, 0⟩])
    ∧ ((selectBase ⟨0, 1⟩ [⟨2, 0⟩]).y < (⟨0, 1⟩ : Coord2D).y
        ∨ ((selectBase ⟨0, 1⟩ [⟨2, 0⟩]).y = (⟨0, 1⟩ : Coord2D).y
            ∧ (selectBase ⟨0, 1⟩ [⟨2, 0⟩]).x ≤ (⟨0, 1⟩ : Coord2D).x)) :=
  ⟨(findConvexHull_head_pivot ⟨0, 1⟩ [⟨2, 0⟩]).2.1,
   (findConvexHull_head_pivot ⟨0, 1⟩ [⟨2, 0⟩]).2.2.2 ⟨0, 1⟩ (by simp)⟩

/-- C6: every element of the returned hull is an element of the input list;
no fabricated points appear. -/
theorem findConvexHull_subset (coords : List Coord2D) :
    ∀ p ∈ findConvexHull coords, p ∈ coords := by
  cases coords with
  | nil => intro p hp; exact absurd hp (by simp [findConvexHull])
  | cons c cs =>
    intro p hp
    rw [show findConvexHull (c :: cs)
        = scanLoop (selectBase c cs) [] (sortByAngle (selectBase c cs) (c :: cs)) from rfl] at hp
    rcases scanLoop_mem _ _ _ _ hp with h | h
    · rw [List.mem_singleton] at h
      rw [h]
      exact (selectBase_spec c cs).1
    · exact (sortByAngle_perm _ _).mem_iff.mp h

/-- Witness for C6 at a concrete input. -/
theorem findConvexHull_subset_witness : (⟨3, 4⟩ : Coord2D) ∈ [(⟨3, 4⟩ : Coord2D), ⟨5, 6⟩] :=
  findConvexHull_subset [⟨3, 4⟩, ⟨5, 6⟩] ⟨3, 4⟩ (by decide)

/-- C7: `findConvexHull` is total by construction (every embedded loop is
structurally recursive and every stack access is covered by the pattern
matches), and it returns the empty sequence exactly on the empty input. -/
theorem findConvexHull_empty_iff (coords : List Coord2D) :
    findConvexHull ([] : List Coord2D) = [] ∧ (findConvexHull coords = [] ↔ coords = []) := by
  refine ⟨rfl, ?_⟩
  cases coords with
  | nil => simp [findConvexHull]
  | cons c cs =>
    constructor
    · intro h
      have hh := findConvexHull_cons_head c cs
      rw [h] at hh
      exact Option.noConfusion hh
    · intro h
      exact List.noConfusion h

/-- C9: on the collinear triple `[(0,0),(1,0),(2,0)]` the hull engine prunes
the midpoint and returns `[(0,0),(2,0)]`. -/
theorem findConvexHull_collinear_triple :
    findConvexHull [⟨0, 0⟩, ⟨1, 0⟩, ⟨2, 0⟩] = [⟨0, 0⟩, ⟨2, 0⟩] := by decide

/-- C1 failing input: with the collinear points of the pivot ray listed
far-before-near, the stable sort keeps that order and the scan never pops
the midpoint, so the returned sequence contains `(1,0)`, which is not a
vertex of the convex hull, and its three consecutive points are collinear. -/
theorem findConvexHull_keeps_collinear_midpoint :
    findConvexHull [⟨0, 0⟩, ⟨2, 0⟩, ⟨1, 0⟩] = [⟨0, 0⟩, ⟨2, 0⟩, ⟨1, 0⟩]
    ∧ collinearPts ⟨0, 0⟩ ⟨2, 0⟩ ⟨1, 0⟩ := by decide

/-- C8 failing input: the two orderings of the same point set give hulls
with different vertex membership — `(1,0)` appears in one output and not in
the other. -/
theorem findConvexHull_perm_membership_differs :
    List.Perm [(⟨0, 0⟩ : Coord2D), ⟨1, 0⟩, ⟨2, 0⟩] [⟨0, 0⟩, ⟨2, 0⟩, ⟨1, 0⟩]
    ∧ (⟨1, 0⟩ : Coord2D) ∈ findConvexHull [⟨0, 0⟩, ⟨2, 0⟩, ⟨1, 0⟩]
    ∧ (⟨1, 0⟩ : Coord2D) ∉ findConvexHull [⟨0, 0⟩, ⟨1, 0⟩, ⟨2, 0⟩] := by decide

example : findConvexHull [⟨0, 0⟩, ⟨0, 10⟩, ⟨10, 10⟩, ⟨10, 0⟩, ⟨5, 5⟩] =
    [⟨0, 0⟩, ⟨10, 0⟩, ⟨10, 10⟩, ⟨0, 10⟩] := by decide

/-! ### Spec-level description of the scan, for the refinement claim

The following definitions transcribe the spec's §4.3 description of the
scan rather than the source: the hull stack is a plain list whose head is
the stack top, "at least two points" is the explicit two-element pattern,
and the final "stack contents in order, starting at the pivot" is the
reversal of the top-first stack. -/

/-- Spec §4.3 step 4 while-loop: while the stack holds at least two points
and `compareAngle(top, candidate, second-to-top, candidate) <= 0`, pop the
top. -/
def specPopLoop (cand : Coord2D) : List Coord2D → List Coord2D
  | t :: s :: rest =>
    if compareAngle t cand s cand ≤ 0 then specPopLoop cand (s :: rest) else t :: s :: rest
  | st => st

/-- Spec §4.3 step 4 body: skip a candidate coordinate-equal to the current
top, otherwise pop per `specPopLoop` and push the candidate.  The stack is
never empty (it starts with the pivot and pushes keep it nonempty); the
empty-stack branch is unreachable. -/
def specStep (cand : Coord2D) (st : List Coord2D) : List Coord2D :=
  match st with
  | [] => [cand]
  | t :: _ => if cand.same t then st else cand :: specPopLoop cand st

/-- Spec §4.3 step 4 loop over the angularly ordered points. -/
def specScan (st : List Coord2D) : List Coord2D → List Coord2D
  | [] => st
  | cand :: cs => specScan (specStep cand st) cs

/-- Spec §4.3: pivot selection, angular sort of all input points, scan from
the stack holding exactly the pivot, and the final stack contents in order
starting at the pivot. -/
def specHull : List Coord2D → List Coord2D
  | [] => []
  | c :: cs =>
    (specScan [selectBase c cs] (sortByAngle (selectBase c cs) (c :: cs))).reverse

lemma popWhile_cons (cand top s : Coord2D) (r : List Coord2D) :
    popWhile cand top (s :: r)
      = if compareAngle top cand s cand ≤ 0 then popWhile cand s r else (top, s :: r) := rfl

lemma specPopLoop_eq (cand : Coord2D) :
    ∀ (rest : List Coord2D) (top : Coord2D),
      specPopLoop cand (top :: rest)
        = (popWhile cand top rest).1 :: (popWhile cand top rest).2 := by
  intro rest
  induction rest with
  | nil => intro top; rfl
  | cons s r ih =>
    intro top
    show (if compareAngle top cand s cand ≤ 0 then specPopLoop cand (s :: r)
        else top :: s :: r) = _
    rw [popWhile_cons]
    by_cases h : compareAngle top cand s cand ≤ 0
    · rw [if_pos h, if_pos h, ih s]
    · rw [if_neg h, if_neg h]

lemma specScan_eq (l : List Coord2D) :
    ∀ (top : Coord2D) (rest : List Coord2D),
      scanLoop top rest l = (specScan (top :: rest) l).reverse := by
  induction l with
  | nil => intro top rest; rfl
  | cons c cs ih =>
    intro top rest
    show (if c.same top = true then scanLoop top rest cs
        else scanLoop c ((popWhile c top rest).1 :: (popWhile c top rest).2) cs)
      = (specScan (specStep c (top :: rest)) cs).reverse
    have hstep : specStep c (top :: rest)
        = if c.same top = true then top :: rest else c :: specPopLoop c (top :: rest) := rfl
    by_cases h : c.same top = true
    · rw [if_pos h, hstep, if_pos h, ih]
    · rw [if_neg h, hstep, if_neg h, specPopLoop_eq, ih]

/-- C5: the hull engine is the spec's scan: starting from the stack holding
exactly the pivot, it processes the angularly sorted input (a permutation
of the input, adjacentwise ascending under `compareAngle` around the
pivot), skipping candidates equal to the top, popping while
`compareAngle(top, cand, second, cand) <= 0`, pushing each candidate, and
returning the final stack contents in order. -/
theorem findConvexHull_refines_spec (c : Coord2D) (cs : List Coord2D) :
    findConvexHull (c :: cs) = specHull (c :: cs)
    ∧ (sortByAngle (selectBase c cs) (c :: cs)).Perm (c :: cs)
    ∧ (sortByAngle (selectBase c cs) (c :: cs)).Chain'
        (fun a b => compareAngle (selectBase c cs) a (selectBase c cs) b ≤ 0) := by
  refine ⟨?_, sortByAngle_perm _ _, sortByAngle_chain _ _⟩
  show scanLoop (selectBase c cs) [] (sortByAngle (selectBase c cs) (c :: cs))
      = (specScan [selectBase c cs] (sortByAngle (selectBase c cs) (c :: cs))).reverse
  exact specScan_eq _ _ _

end GrahamScan
